import Mathlib

/-!
Verification of the audio-tools repository core: the sample codec shared by
`sr-to-ir.py` and `signal-gen.py`, the central-difference derivation pipeline
with its optional band-limiting pass and final peak rescale, and the LCG-based
test-signal generator.  Floating-point arithmetic of the source is modelled by
exact rational arithmetic; machine integers by `Int`/`Nat`; byte strings by
`List Nat` of byte values; fallible library calls (`struct.pack`/`unpack`)
by `Except`.
-/

/-- `derive` from sr-to-ir.py: appends 0.0, then `ir[i+1] - ir[i-1]` for
`i` in Python `range(1, n-1)` (which has `n - 2` elements, clipped at 0),
then 0.0 again. -/
def derive (ir : List ℚ) : List ℚ :=
  0 :: ((List.range' 1 (ir.length - 2)).map (fun i => ir.getD (i + 1) 0 - ir.getD (i - 1) 0) ++ [0])

/-- The derivative of the concrete ramp used by the spec's test vector. -/
theorem derive_ramp_example : derive [0, 1, 2, 3, 4] = [0, 2, 2, 2, 0] := by
  norm_num [derive, List.range']

/-- C1: central-difference derivation: for input of length `n ≥ 2` the output has
length `n`, both boundary samples are exactly zero, every interior sample `i`
(for `1 ≤ i ≤ n - 2`) equals `s[i+1] - s[i-1]`, and the spec's concrete test
vector `derive [0,1,2,3,4] = [0,2,2,2,0]` holds. -/
theorem derive_central_difference (s : List ℚ) (h : 2 ≤ s.length) :
    (derive s).length = s.length ∧
    (derive s).getD 0 0 = 0 ∧
    (derive s).getD (s.length - 1) 0 = 0 ∧
    (∀ i, 1 ≤ i → i ≤ s.length - 2 →
      (derive s).getD i 0 = s.getD (i + 1) 0 - s.getD (i - 1) 0) ∧
    derive [0, 1, 2, 3, 4] = [0, 2, 2, 2, 0] := by
  have hlen : (derive s).length = s.length := by
    simp only [derive, List.length_cons, List.length_append, List.length_map,
      List.length_range', List.length_nil]
    omega
  refine ⟨hlen, rfl, ?_, ?_, derive_ramp_example⟩
  · obtain ⟨m, hm⟩ : ∃ m, s.length - 1 = m + 1 := ⟨s.length - 2, by omega⟩
    rw [hm]
    simp only [derive, List.getD_cons_succ]
    have hmm : m = ((List.range' 1 (s.length - 2)).map
        (fun i => s.getD (i + 1) 0 - s.getD (i - 1) 0)).length := by
      simp only [List.length_map, List.length_range']; omega
    rw [List.getD_eq_getElem?_getD, List.getElem?_append_right (by omega)]
    simp [hmm]
  · intro i hi1 hi2
    obtain ⟨j, rfl⟩ : ∃ j, i = j + 1 := ⟨i - 1, by omega⟩
    simp only [derive, List.getD_cons_succ]
    have hj : j < ((List.range' 1 (s.length - 2)).map
        (fun i => s.getD (i + 1) 0 - s.getD (i - 1) 0)).length := by
      simp only [List.length_map, List.length_range']; omega
    rw [List.getD_eq_getElem?_getD, List.getElem?_append_left hj,
      List.getElem?_eq_getElem hj]
    simp only [List.getElem_map, List.getElem_range', Option.getD_some]
    have h1 : 1 + 1 * j = j + 1 := by omega
    rw [h1]

/-- Witness for C1 at the spec's concrete test vector. -/
theorem derive_central_difference_witness :
    2 ≤ ([0, 1, 2, 3, 4] : List ℚ).length ∧
    (derive [0, 1, 2, 3, 4]).getD 2 0 =
      ([0, 1, 2, 3, 4] : List ℚ).getD 3 0 - ([0, 1, 2, 3, 4] : List ℚ).getD 1 0 :=
  ⟨by norm_num,
    (derive_central_difference [0, 1, 2, 3, 4] (by norm_num)).2.2.2.1 2
      (by norm_num) (by norm_num)⟩

/-- C10: on inputs of length 0 or 1 `derive` still produces the two boundary
zeros, so the output `[0, 0]` is longer than the input. -/
theorem derive_short_input :
    derive ([] : List ℚ) = [0, 0] ∧
    (∀ x : ℚ, derive [x] = [0, 0]) ∧
    (derive ([] : List ℚ)).length = 2 ∧
    (∀ x : ℚ, (derive [x]).length = 2) := by
  refine ⟨rfl, fun x => ?_, rfl, fun x => ?_⟩ <;> simp [derive]

/-- The band-limiting loop of the post-processing step in sr-to-ir.py: for each
index `i` of the frequency list, the FFT bin `i` (a complex value modelled as a
pair of rationals) is set to `0` when `|freqs[i]| < 20` or `|freqs[i]| > 20000`,
and left unchanged otherwise. -/
def bandLimit (freqs : List ℚ) (fft : List (ℚ × ℚ)) : List (ℚ × ℚ) :=
  List.zipWith (fun f v => if |f| < 20 ∨ |f| > 20000 then ((0 : ℚ), (0 : ℚ)) else v) freqs fft

theorem getD_zipWith {α β γ : Type} (f : α → β → γ) (d1 : α) (d2 : β) (d3 : γ) :
    ∀ (l1 : List α) (l2 : List β) (i : ℕ), i < l1.length → i < l2.length →
      (List.zipWith f l1 l2).getD i d3 = f (l1.getD i d1) (l2.getD i d2) := by
  intro l1
  induction l1 with
  | nil => intro l2 i h1 h2; simp at h1
  | cons a l1 ih =>
    intro l2 i h1 h2
    cases l2 with
    | nil => simp at h2
    | cons b l2 =>
      cases i with
      | zero => rfl
      | succ j =>
        simp only [List.zipWith_cons_cons, List.getD_cons_succ]
        exact ih l2 j (by simpa using h1) (by simpa using h2)

/-- C2: the band-limiting pass zeroes bin `i` exactly when its absolute
frequency is strictly below 20 Hz or strictly above 20000 Hz; bins whose
absolute frequency lies in the closed band `[20, 20000]` (its edges included)
keep their complex value unchanged. -/
theorem bandLimit_band_edges (freqs : List ℚ) (fft : List (ℚ × ℚ)) (i : ℕ)
    (h1 : i < freqs.length) (h2 : i < fft.length) :
    ((|freqs.getD i 0| < 20 ∨ |freqs.getD i 0| > 20000) →
      (bandLimit freqs fft).getD i (0, 0) = (0, 0)) ∧
    (20 ≤ |freqs.getD i 0| → |freqs.getD i 0| ≤ 20000 →
      (bandLimit freqs fft).getD i (0, 0) = fft.getD i (0, 0)) := by
  rw [bandLimit, getD_zipWith _ 0 (0, 0) _ freqs fft i h1 h2]
  constructor
  · intro hout
    rw [if_pos hout]
  · intro hlo hhi
    rw [if_neg]
    push_neg
    exact ⟨hlo, hhi⟩

/-- Witness for C2: a 19 Hz bin is zeroed, a 20 Hz bin passes unchanged. -/
theorem bandLimit_band_edges_witness :
    (bandLimit [19, 20] [(5, 5), (7, 7)]).getD 0 (0, 0) = (0, 0) ∧
    (bandLimit [19, 20] [(5, 5), (7, 7)]).getD 1 (0, 0) = (7, 7) :=
  ⟨(bandLimit_band_edges [19, 20] [(5, 5), (7, 7)] 0 (by norm_num) (by norm_num)).1
      (by norm_num),
   (bandLimit_band_edges [19, 20] [(5, 5), (7, 7)] 1 (by norm_num) (by norm_num)).2
      (by norm_num) (by norm_num)⟩

/-- `np.max(np.absolute(s))` of the rescale step in sr-to-ir.py (for nonempty
`s`; the fold's base value 0 is a lower bound of every absolute value). -/
def peakAbs (s : List ℚ) : ℚ := (s.map (fun x => |x|)).foldr max 0

/-- The final rescale step of sr-to-ir.py: `scale = 1.0 / peak; ndata *= scale`,
performed unconditionally (no guard on `peak`). -/
def rescale (s : List ℚ) : List ℚ := s.map (fun x => x * (1 / peakAbs s))

theorem le_foldr_max (l : List ℚ) (a : ℚ) (ha : a ∈ l) : a ≤ l.foldr max 0 := by
  induction l with
  | nil => simp at ha
  | cons b l ih =>
    rcases List.mem_cons.mp ha with rfl | hm
    · exact le_max_left _ _
    · exact (ih hm).trans (le_max_right _ _)

theorem foldr_max_nonneg (l : List ℚ) : 0 ≤ l.foldr max 0 := by
  induction l with
  | nil => simp
  | cons b l ih => exact ih.trans (le_max_right _ _)

theorem peakAbs_nonneg (s : List ℚ) : 0 ≤ peakAbs s := foldr_max_nonneg _

theorem foldr_max_mul (l : List ℚ) (c : ℚ) (hc : 0 ≤ c) :
    (l.map (fun x => x * c)).foldr max 0 = l.foldr max 0 * c := by
  induction l with
  | nil => simp
  | cons b l ih =>
    simp only [List.map_cons, List.foldr_cons, ih]
    exact (max_mul_of_nonneg _ _ hc).symm

/-- C3: the peak-rescale divisor `max(|signal|)` is nonzero whenever the signal
has a nonzero sample, it is zero for every identically-zero signal, and the
rescale step divides by it unconditionally (no guard, no defined no-op). -/
theorem rescale_unguarded_divisor (s : List ℚ) :
    ((∃ x ∈ s, x ≠ 0) → peakAbs s ≠ 0) ∧
    (∀ n : ℕ, peakAbs (List.replicate n 0) = 0) ∧
    rescale s = s.map (fun x => x * (1 / peakAbs s)) := by
  refine ⟨?_, ?_, rfl⟩
  · rintro ⟨x, hx, hx0⟩
    have h1 : |x| ≤ peakAbs s := le_foldr_max _ _ (List.mem_map_of_mem _ hx)
    have h2 : 0 < |x| := abs_pos.mpr hx0
    exact ne_of_gt (h2.trans_le h1)
  · intro n
    induction n with
    | zero => rfl
    | succ m ih =>
      rw [peakAbs] at ih ⊢
      rw [List.replicate_succ, List.map_cons, List.foldr_cons, ih]
      simp

/-- Witness for C3: a signal with a nonzero sample has nonzero peak, the
all-zero signal of length 4 has peak zero. -/
theorem rescale_unguarded_divisor_witness :
    peakAbs [0, 3, 0] ≠ 0 ∧ peakAbs (List.replicate 4 0) = 0 :=
  ⟨(rescale_unguarded_divisor [0, 3, 0]).1 ⟨3, by norm_num⟩,
   (rescale_unguarded_divisor []).2.1 4⟩

theorem peakAbs_rescale (s : List ℚ) (h : peakAbs s ≠ 0) : peakAbs (rescale s) = 1 := by
  have hpos : 0 < peakAbs s := lt_of_le_of_ne (peakAbs_nonneg s) (Ne.symm h)
  have hc : 0 ≤ 1 / peakAbs s := by positivity
  have habs : (rescale s).map (fun x => |x|) =
      (s.map (fun x => |x|)).map (fun x => x * (1 / peakAbs s)) := by
    simp only [rescale, List.map_map]
    refine List.map_congr_left fun x hx => ?_
    simp only [Function.comp_apply]
    rw [abs_mul, abs_of_nonneg hc]
  rw [peakAbs, habs, foldr_max_mul _ _ hc]
  rw [show (s.map fun x => |x|).foldr max 0 = peakAbs s from rfl]
  field_simp

/-- C9: for a signal with nonzero peak, one rescale brings the peak to exactly
1, and applying the rescale step twice equals applying it once. -/
theorem rescale_idempotent (s : List ℚ) (h : peakAbs s ≠ 0) :
    peakAbs (rescale s) = 1 ∧ rescale (rescale s) = rescale s := by
  refine ⟨peakAbs_rescale s h, ?_⟩
  rw [rescale, peakAbs_rescale s h]
  simp

/-- Witness for C9 on the concrete signal `[2, -1]`. -/
theorem rescale_idempotent_witness :
    peakAbs [2, -1] ≠ 0 ∧ peakAbs (rescale [2, -1]) = 1 ∧
      rescale (rescale [2, -1]) = rescale [2, -1] := by
  have h : peakAbs [2, -1] ≠ 0 := by norm_num [peakAbs]
  exact ⟨h, rescale_idempotent [2, -1] h⟩

/-- The two bytes of Python `struct.pack("<h", v)` (16-bit little-endian),
as the two's-complement representation `v mod 2^16` split into low and high
byte, low byte first. -/
def pack16Raw (v : ℤ) : List ℕ :=
  [(v % 65536).toNat % 256, (v % 65536).toNat / 256]

/-- `struct.pack("<h", v)`, which raises `struct.error` outside the signed
16-bit range. -/
def pack16LE (v : ℤ) : Except String (List ℕ) :=
  if -32768 ≤ v ∧ v ≤ 32767 then Except.ok (pack16Raw v)
  else Except.error "short format requires -32768 <= number <= 32767"

/-- The four bytes of Python `struct.pack(">i", v)` (32-bit big-endian),
most significant byte first. -/
def pack32Raw (v : ℤ) : List ℕ :=
  [(v % 4294967296).toNat / 16777216, (v % 4294967296).toNat / 65536 % 256,
   (v % 4294967296).toNat / 256 % 256, (v % 4294967296).toNat % 256]

/-- `struct.pack(">i", v)`, which raises `struct.error` outside the signed
32-bit range. -/
def pack32BE (v : ℤ) : Except String (List ℕ) :=
  if -2147483648 ≤ v ∧ v ≤ 2147483647 then Except.ok (pack32Raw v)
  else Except.error "argument out of range"

/-- `Audio.serialize` of both source files: pack each integer with `"<h"`
(low_res) or `">i"` and concatenate the byte strings. -/
def serialize (lowRes : Bool) : List ℤ → Except String (List ℕ)
  | [] => Except.ok []
  | v :: rest => do
    let b ← if lowRes then pack16LE v else pack32BE v
    let r ← serialize lowRes rest
    return b ++ r

/-- Sign-decoding of one 16-bit little-endian sample as `struct.unpack` does. -/
def unpack16LE (b0 b1 : ℕ) : ℤ :=
  let u := b0 + 256 * b1
  if u < 32768 then (u : ℤ) else (u : ℤ) - 65536

/-- Sign-decoding of one 32-bit big-endian sample as `struct.unpack` does. -/
def unpack32BE (b0 b1 b2 b3 : ℕ) : ℤ :=
  let u := b3 + 256 * b2 + 65536 * b1 + 16777216 * b0
  if u < 2147483648 then (u : ℤ) else (u : ℤ) - 4294967296

def decode16 : List ℕ → List ℤ
  | b0 :: b1 :: rest => unpack16LE b0 b1 :: decode16 rest
  | _ => []

def decode32 : List ℕ → List ℤ
  | b0 :: b1 :: b2 :: b3 :: rest => unpack32BE b0 b1 b2 b3 :: decode32 rest
  | _ => []

/-- `Audio.deserialize` of both source files: it builds the format string
`"<" + "h"*(len(s)//2)` (low_res) or `">" + "i"*(len(s)//4)` and calls
`struct.unpack`, which requires the buffer length to equal the format's size
exactly — so a length that is not a multiple of the stride raises
`struct.error` instead of being truncated. -/
def deserialize (lowRes : Bool) (s : List ℕ) : Except String (List ℤ) :=
  if lowRes then
    if s.length % 2 = 0 then Except.ok (decode16 s)
    else Except.error "unpack requires a string argument matching the format length"
  else
    if s.length % 4 = 0 then Except.ok (decode32 s)
    else Except.error "unpack requires a string argument matching the format length"

theorem unpack16_pack16 (v : ℤ) (h1 : -32768 ≤ v) (h2 : v ≤ 32767) :
    unpack16LE ((v % 65536).toNat % 256) ((v % 65536).toNat / 256) = v := by
  simp only [unpack16LE]
  split <;> omega

theorem unpack32_pack32 (v : ℤ) (h1 : -2147483648 ≤ v) (h2 : v ≤ 2147483647) :
    unpack32BE ((v % 4294967296).toNat / 16777216) ((v % 4294967296).toNat / 65536 % 256)
      ((v % 4294967296).toNat / 256 % 256) ((v % 4294967296).toNat % 256) = v := by
  simp only [unpack32BE]
  split <;> omega

theorem serialize16_ok (a : List ℤ) (h : ∀ v ∈ a, -32768 ≤ v ∧ v ≤ 32767) :
    serialize true a = Except.ok (a.flatMap pack16Raw) := by
  induction a with
  | nil => rfl
  | cons v rest ih =>
    have hv := h v (List.mem_cons_self v rest)
    have hrest := ih (fun x hx => h x (List.mem_cons_of_mem v hx))
    simp [serialize, pack16LE, hv.1, hv.2, hrest, List.flatMap_cons, Bind.bind, Except.bind,
      Pure.pure, Except.pure]

theorem serialize32_ok (a : List ℤ) (h : ∀ v ∈ a, -2147483648 ≤ v ∧ v ≤ 2147483647) :
    serialize false a = Except.ok (a.flatMap pack32Raw) := by
  induction a with
  | nil => rfl
  | cons v rest ih =>
    have hv := h v (List.mem_cons_self v rest)
    have hrest := ih (fun x hx => h x (List.mem_cons_of_mem v hx))
    simp [serialize, pack32BE, hv.1, hv.2, hrest, List.flatMap_cons, Bind.bind, Except.bind,
      Pure.pure, Except.pure]

theorem decode16_flatMap (a : List ℤ) (h : ∀ v ∈ a, -32768 ≤ v ∧ v ≤ 32767) :
    decode16 (a.flatMap pack16Raw) = a := by
  induction a with
  | nil => rfl
  | cons v rest ih =>
    have hv := h v (List.mem_cons_self v rest)
    have hrest := ih (fun x hx => h x (List.mem_cons_of_mem v hx))
    rw [List.flatMap_cons, pack16Raw, List.cons_append, List.cons_append, List.nil_append,
      decode16, unpack16_pack16 v hv.1 hv.2, hrest]

theorem decode32_flatMap (a : List ℤ) (h : ∀ v ∈ a, -2147483648 ≤ v ∧ v ≤ 2147483647) :
    decode32 (a.flatMap pack32Raw) = a := by
  induction a with
  | nil => rfl
  | cons v rest ih =>
    have hv := h v (List.mem_cons_self v rest)
    have hrest := ih (fun x hx => h x (List.mem_cons_of_mem v hx))
    rw [List.flatMap_cons, pack32Raw, List.cons_append, List.cons_append, List.cons_append,
      List.cons_append, List.nil_append, decode32, unpack32_pack32 v hv.1 hv.2, hrest]

theorem flatMap_pack16Raw_length (a : List ℤ) :
    (a.flatMap pack16Raw).length = 2 * a.length := by
  induction a with
  | nil => rfl
  | cons v rest ih => simp [List.flatMap_cons, pack16Raw, ih]; omega

theorem flatMap_pack32Raw_length (a : List ℤ) :
    (a.flatMap pack32Raw).length = 4 * a.length := by
  induction a with
  | nil => rfl
  | cons v rest ih => simp [List.flatMap_cons, pack32Raw, ih]; omega

/-- C4: the codec round trip restores every sequence of in-range integers
exactly, for the 16-bit little-endian pairing with full scale `2^15 - 1` and
the 32-bit big-endian pairing with full scale `2^31 - 1`. -/
theorem codec_round_trip :
    (∀ a : List ℤ, (∀ v ∈ a, -(2 ^ 15 - 1) ≤ v ∧ v ≤ 2 ^ 15 - 1) →
      serialize true a >>= deserialize true = Except.ok a) ∧
    (∀ a : List ℤ, (∀ v ∈ a, -(2 ^ 31 - 1) ≤ v ∧ v ≤ 2 ^ 31 - 1) →
      serialize false a >>= deserialize false = Except.ok a) := by
  constructor
  · intro a h
    have h16 : ∀ v ∈ a, -32768 ≤ v ∧ v ≤ 32767 := by
      intro v hv; have := h v hv; norm_num at this ⊢; omega
    rw [serialize16_ok a h16]
    show deserialize true (a.flatMap pack16Raw) = Except.ok a
    have hmod : (a.flatMap pack16Raw).length % 2 = 0 := by
      rw [flatMap_pack16Raw_length]; omega
    rw [deserialize, if_pos rfl, if_pos hmod, decode16_flatMap a h16]
  · intro a h
    have h32 : ∀ v ∈ a, -2147483648 ≤ v ∧ v ≤ 2147483647 := by
      intro v hv; have := h v hv; norm_num at this ⊢; omega
    rw [serialize32_ok a h32]
    show deserialize false (a.flatMap pack32Raw) = Except.ok a
    have hmod : (a.flatMap pack32Raw).length % 4 = 0 := by
      rw [flatMap_pack32Raw_length]; omega
    rw [deserialize, if_neg (by simp), if_pos hmod, decode32_flatMap a h32]

/-- Witness for C4 on concrete extreme and ordinary sample values. -/
theorem codec_round_trip_witness :
    serialize true [32767, -32767, 5] >>= deserialize true = Except.ok [32767, -32767, 5] ∧
    serialize false [2147483647, -2147483647] >>= deserialize false =
      Except.ok [2147483647, -2147483647] :=
  ⟨codec_round_trip.1 [32767, -32767, 5] (by decide),
   codec_round_trip.2 [2147483647, -2147483647] (by decide)⟩

theorem decode16_length : ∀ s : List ℕ, (decode16 s).length = s.length / 2 := by
  intro s
  induction s using decode16.induct with
  | case1 b0 b1 rest ih => simp [decode16, ih]; omega
  | case2 s h =>
    cases s with
    | nil => simp [decode16]
    | cons b t =>
      cases t with
      | nil => simp [decode16]
      | cons b1 t1 => exact absurd rfl (h b b1 t1)

theorem decode32_length : ∀ s : List ℕ, (decode32 s).length = s.length / 4 := by
  intro s
  induction s using decode32.induct with
  | case1 b0 b1 b2 b3 rest ih => simp [decode32, ih]; omega
  | case2 s h =>
    cases s with
    | nil => simp [decode32]
    | cons a t =>
      cases t with
      | nil => simp [decode32]
      | cons b t1 =>
        cases t1 with
        | nil => simp [decode32]
        | cons c t2 =>
          cases t2 with
          | nil => simp [decode32]
          | cons d t3 => exact absurd rfl (h a b c d t3)

/-- C7 counterexample: decoding the 3-byte string `[7, 0, 0]` at 16-bit width
does not silently truncate to the one sample `[7]`; `struct.unpack` rejects the
length mismatch, so `deserialize` fails. -/
theorem deserialize_short_input_error :
    deserialize true [7, 0, 0] ≠ Except.ok [7] ∧
    (deserialize true [7, 0, 0]).isOk = false := by
  constructor
  · intro hcontra
    rw [deserialize] at hcontra
    simp at hcontra
  · rfl

/-- C7 amended: for a byte string whose length is not a multiple of the sample
width, `deserialize` reports a `struct.error` (it does not return truncated
samples); when the length is a multiple of the width it returns exactly
`length / width` samples. -/
theorem deserialize_length_mismatch (s : List ℕ) :
    (s.length % 2 ≠ 0 → ∃ msg, deserialize true s = Except.error msg) ∧
    (s.length % 2 = 0 → deserialize true s = Except.ok (decode16 s) ∧
      (decode16 s).length = s.length / 2) ∧
    (s.length % 4 ≠ 0 → ∃ msg, deserialize false s = Except.error msg) ∧
    (s.length % 4 = 0 → deserialize false s = Except.ok (decode32 s) ∧
      (decode32 s).length = s.length / 4) := by
  refine ⟨fun hodd => ?_, fun heven => ?_, fun hodd => ?_, fun heven => ?_⟩
  · rw [deserialize, if_pos rfl, if_neg hodd]
    exact ⟨_, rfl⟩
  · rw [deserialize, if_pos rfl, if_pos heven]
    exact ⟨rfl, decode16_length s⟩
  · rw [deserialize, if_neg (by simp), if_neg hodd]
    exact ⟨_, rfl⟩
  · rw [deserialize, if_neg (by simp), if_pos heven]
    exact ⟨rfl, decode32_length s⟩

/-- Witness for the amended C7 at a 3-byte and a 2-byte input. -/
theorem deserialize_length_mismatch_witness :
    (∃ msg, deserialize true [7, 0, 0] = Except.error msg) ∧
    deserialize true [7, 0] = Except.ok (decode16 [7, 0]) :=
  ⟨(deserialize_length_mismatch [7, 0, 0]).1 (by decide),
   ((deserialize_length_mismatch [7, 0]).2.1 (by decide)).1⟩

/-- Modulus `c = 2^31 - 1` of the LCG in signal-gen.py. -/
def lcg_c : ℕ := 2 ^ 31 - 1

/-- Multiplier `a = 7^5` of the LCG. -/
def lcg_a : ℕ := 7 ^ 5

/-- Increment `b = 0` of the LCG. -/
def lcg_b : ℕ := 0

/-- The constructor's re-seeding transform: `(scale*seed + offset) mod c`
with `scale = 64979`, `offset = 83`. -/
def lcg_init (seed : ℤ) : ℕ := ((64979 * seed + 83) % (lcg_c : ℤ)).toNat

/-- One transition of the LCG: `state ← (a*state + b) mod c`. -/
def lcg_next (s : ℕ) : ℕ := (lcg_a * s + lcg_b) % lcg_c

/-- The LCG state after `n` advances from a fresh seed. -/
def lcg_state (seed : ℤ) : ℕ → ℕ
  | 0 => lcg_init seed
  | n + 1 => lcg_next (lcg_state seed n)

/-- `LCG.draw_uniform(n)` on a freshly seeded generator: `n` successive
advances, each returned state divided by `c`. -/
def draw_uniform (seed : ℤ) (n : ℕ) : List ℚ :=
  (List.range n).map (fun i => (lcg_state seed (i + 1) : ℚ) / (lcg_c : ℚ))

theorem draw_uniform_length (seed : ℤ) (n : ℕ) : (draw_uniform seed n).length = n := by
  simp [draw_uniform]

theorem lcg_state_lt (seed : ℤ) (i : ℕ) : lcg_state seed (i + 1) < lcg_c := by
  show lcg_next (lcg_state seed i) < lcg_c
  exact Nat.mod_lt _ (by norm_num [lcg_c])

/-- C6: `draw_uniform n` returns exactly `n` values, the `i`-th (0-indexed `i`,
so state index `i + 1`) being `state_{i+1} / c` for the recurrence
`state_0 = (64979*seed + 83) mod c`, `state_{k+1} = (7^5 * state_k + 0) mod c`
with `c = 2^31 - 1`; every value lies in `[0, 1)`.  The draws are a pure
function of the seed, hence reproducible. -/
theorem lcg_draw_uniform_spec (seed : ℤ) (n : ℕ) :
    (draw_uniform seed n).length = n ∧
    (∀ i, i < n → (draw_uniform seed n).getD i 0 =
      (lcg_state seed (i + 1) : ℚ) / (lcg_c : ℚ)) ∧
    lcg_state seed 0 = ((64979 * seed + 83) % (lcg_c : ℤ)).toNat ∧
    (∀ i, lcg_state seed (i + 1) = (lcg_a * lcg_state seed i + lcg_b) % lcg_c) ∧
    (∀ q ∈ draw_uniform seed n, 0 ≤ q ∧ q < 1) := by
  refine ⟨draw_uniform_length seed n, ?_, rfl, fun i => rfl, ?_⟩
  · intro i hi
    rw [draw_uniform, List.getD_eq_getElem?_getD, List.getElem?_map,
      List.getElem?_range hi]
    rfl
  · intro q hq
    rw [draw_uniform, List.mem_map] at hq
    obtain ⟨i, hi, rfl⟩ := hq
    have hlt : lcg_state seed (i + 1) < lcg_c := lcg_state_lt seed i
    have hcpos : (0 : ℚ) < (lcg_c : ℚ) := by norm_num [lcg_c]
    constructor
    · positivity
    · rw [div_lt_one hcpos]
      exact_mod_cast hlt

/-- Witness for C6 with the generator's fixed seed 1337 and two draws. -/
theorem lcg_draw_uniform_spec_witness :
    (draw_uniform 1337 2).length = 2 ∧
    (draw_uniform 1337 2).getD 0 0 = (lcg_state 1337 1 : ℚ) / (lcg_c : ℚ) ∧
    (0 ≤ (lcg_state 1337 1 : ℚ) / (lcg_c : ℚ) ∧ (lcg_state 1337 1 : ℚ) / (lcg_c : ℚ) < 1) :=
  ⟨(lcg_draw_uniform_spec 1337 2).1,
   (lcg_draw_uniform_spec 1337 2).2.1 0 (by norm_num),
   (lcg_draw_uniform_spec 1337 2).2.2.2.2 _
     (List.mem_map_of_mem _ (List.mem_range.mpr (by norm_num)))⟩

/-- `rate` in signal-gen.py. -/
def sample_rate : ℕ := 96000

/-- `num = rate // 50` in signal-gen.py, the replay chunk size. -/
def chunk_num : ℕ := sample_rate / 50

/-- `np.zeros(rate)`. -/
def silence : List ℚ := List.replicate sample_rate 0

/-- `np.ones(rate)`. -/
def plusone : List ℚ := List.replicate sample_rate 1

/-- `-np.ones(rate)`. -/
def minusone : List ℚ := List.replicate sample_rate (-1)

/-- `lcg.draw_uniform(n = rate)` with `lcg = LCG(1337)`. -/
def noise : List ℚ := draw_uniform 1337 sample_rate

/-- The `np.concatenate` building the test waveform, in the source's order. -/
def waveform : List ℚ :=
  silence ++ noise ++ silence ++ plusone ++ silence ++ minusone ++
    silence ++ plusone ++ minusone ++ silence

/-- The replay loop `ldata, rdata = rdata[0 : num], rdata[num : ]` of
signal-gen.py, as the list of emitted chunks for one pass over the waveform. -/
def splitChunks : List ℚ → List (List ℚ)
  | [] => []
  | x :: xs => (x :: xs).take chunk_num :: splitChunks ((x :: xs).drop chunk_num)
termination_by l => l.length
decreasing_by simp [chunk_num, sample_rate]; omega

theorem chunk_num_eq : chunk_num = 1920 := rfl

theorem splitChunks_spec : ∀ l : List ℚ, chunk_num ∣ l.length →
    (∀ c ∈ splitChunks l, c.length = chunk_num) ∧
    (splitChunks l).length = l.length / chunk_num := by
  intro l
  induction l using splitChunks.induct with
  | case1 => intro _; exact ⟨fun c hc => absurd hc (by simp [splitChunks]), by simp [splitChunks]⟩
  | case2 x xs ih =>
    intro hdvd
    have hpos : 0 < (x :: xs).length := by simp
    have hle : chunk_num ≤ (x :: xs).length := Nat.le_of_dvd hpos hdvd
    have hdvd2 : chunk_num ∣ ((x :: xs).drop chunk_num).length := by
      rw [List.length_drop]
      exact Nat.dvd_sub' hdvd dvd_rfl
    obtain ⟨hall, hcount⟩ := ih hdvd2
    constructor
    · intro c hc
      rw [splitChunks] at hc
      rcases List.mem_cons.mp hc with rfl | hm
      · rw [List.length_take]
        omega
      · exact hall c hm
    · rw [splitChunks, List.length_cons, hcount, List.length_drop]
      rw [chunk_num_eq] at hdvd hle ⊢
      omega

theorem splitChunks_flatten : ∀ l : List ℚ, (splitChunks l).flatten = l := by
  intro l
  induction l using splitChunks.induct with
  | case1 => rw [splitChunks]; rfl
  | case2 x xs ih =>
    rw [splitChunks, List.flatten_cons, ih, List.take_append_drop]

theorem waveform_length : waveform.length = 10 * sample_rate := by
  simp [waveform, silence, plusone, minusone, noise, draw_uniform_length]
  norm_num [sample_rate]

/-- C8: the generator's waveform is exactly the stated ten one-second segments
in the source's order (noise drawn from the LCG seeded with 1337), has length
`10 * sample_rate`, and one replay pass emits it as 500 chunks of exactly
`sample_rate / 50` samples whose concatenation is the whole waveform. -/
theorem waveform_assembly :
    waveform = silence ++ noise ++ silence ++ plusone ++ silence ++ minusone ++
      silence ++ plusone ++ minusone ++ silence ∧
    noise = draw_uniform 1337 sample_rate ∧
    waveform.length = 10 * sample_rate ∧
    (splitChunks waveform).length = 500 ∧
    (∀ i : Fin (splitChunks waveform).length,
      ((splitChunks waveform).get i).length = sample_rate / 50) ∧
    (splitChunks waveform).flatten = waveform := by
  have hdvd : chunk_num ∣ waveform.length := by
    rw [waveform_length, chunk_num_eq]; norm_num [sample_rate]
  obtain ⟨hall, hcount⟩ := splitChunks_spec waveform hdvd
  refine ⟨rfl, rfl, waveform_length, ?_, ?_, splitChunks_flatten waveform⟩
  · rw [hcount, waveform_length, chunk_num_eq]; norm_num [sample_rate]
  · intro i
    exact hall _ (List.get_mem _ i.1 i.2)

/-- `np.clip(x, -1.0, 1.0)` applied elementwise by `Audio.denormalize`. -/
def clip (x : ℚ) : ℚ := min (max x (-1)) 1

/-- `.astype(np.int64)`: conversion of a float to an integer truncates toward
zero (floor for nonnegative values, ceiling for negative ones). -/
def truncTowardZero (q : ℚ) : ℤ := if 0 ≤ q then ⌊q⌋ else ⌈q⌉

/-- `Audio.denormalize` of both source files: clamp each sample to
`[-1.0, 1.0]`, multiply by `fac = 1.0 * max_val`, truncate toward zero. -/
def denormalize (data : List ℚ) (maxVal : ℤ) : List ℤ :=
  data.map (fun x => truncTowardZero ((maxVal : ℚ) * clip x))

theorem clip_mem_Icc (x : ℚ) : -1 ≤ clip x ∧ clip x ≤ 1 :=
  ⟨le_min (le_max_right x (-1)) (by norm_num), min_le_right _ _⟩

/-- C5: `denormalize` clamps, multiplies by the full scale and truncates toward
zero, so for a nonnegative full scale every output integer lies in
`[-full_scale, full_scale]` — the encode range of the matching width. -/
theorem denormalize_in_range (data : List ℚ) (maxVal : ℤ) (hpos : 0 ≤ maxVal) :
    denormalize data maxVal = data.map (fun x => truncTowardZero ((maxVal : ℚ) * clip x)) ∧
    ∀ v ∈ denormalize data maxVal, -maxVal ≤ v ∧ v ≤ maxVal := by
  refine ⟨rfl, ?_⟩
  intro v hv
  rw [denormalize, List.mem_map] at hv
  obtain ⟨x, hx, rfl⟩ := hv
  obtain ⟨hlo, hhi⟩ := clip_mem_Icc x
  have hm : (0 : ℚ) ≤ (maxVal : ℚ) := by exact_mod_cast hpos
  have hq1 : (maxVal : ℚ) * clip x ≤ (maxVal : ℚ) := by
    calc (maxVal : ℚ) * clip x ≤ (maxVal : ℚ) * 1 := mul_le_mul_of_nonneg_left hhi hm
    _ = (maxVal : ℚ) := mul_one _
  have hq2 : -(maxVal : ℚ) ≤ (maxVal : ℚ) * clip x := by
    calc -(maxVal : ℚ) = (maxVal : ℚ) * (-1) := by ring
    _ ≤ (maxVal : ℚ) * clip x := mul_le_mul_of_nonneg_left hlo hm
  rw [truncTowardZero]
  split
  · constructor
    · have h0 : (0 : ℤ) ≤ ⌊(maxVal : ℚ) * clip x⌋ := Int.le_floor.mpr (by assumption)
      omega
    · calc ⌊(maxVal : ℚ) * clip x⌋ ≤ ⌊((maxVal : ℤ) : ℚ)⌋ := Int.floor_le_floor hq1
      _ = maxVal := Int.floor_intCast maxVal
  · constructor
    · calc -maxVal = ⌈((-maxVal : ℤ) : ℚ)⌉ := (Int.ceil_intCast _).symm
      _ ≤ ⌈(maxVal : ℚ) * clip x⌉ := Int.ceil_le_ceil (by push_cast; exact hq2)
    · have h0 : ⌈(maxVal : ℚ) * clip x⌉ ≤ 0 := by
        rw [show (0 : ℤ) = ⌈(0 : ℚ)⌉ from Int.ceil_zero.symm]
        exact Int.ceil_le_ceil (by linarith)
      omega

/-- Witness for C5: the over-range sample 2.0 clips to 1.0 and denormalizes to
exactly the full scale 32767, which is within range. -/
theorem denormalize_in_range_witness :
    (32767 : ℤ) ∈ denormalize [2] 32767 ∧ 0 ≤ (32767 : ℤ) ∧
      (-(32767 : ℤ) ≤ 32767 ∧ (32767 : ℤ) ≤ 32767) := by
  have hmem : (32767 : ℤ) ∈ denormalize [2] 32767 := by
    norm_num [denormalize, clip, truncTowardZero, max_def, min_def]
  exact ⟨hmem, by norm_num, (denormalize_in_range [2] 32767 (by norm_num)).2 32767 hmem⟩
